import Mathlib

/-!
Verification of the per-user vector memory store of the angel-memory
repository. The definitions below are shallow embeddings of the Python
source: `src/FIXES/memory_store_fix.py` (class `MemoryStoreFixed`),
`src/modules/memory_store.py` (class `MemoryStore`) and
`src/modules/memory_embedder.py` (class `MemoryEmbedder`).

Modelling conventions:
- SQLite tables are lists of row structures; a SQL `WHERE` clause is a
  filter, `INSERT` an append, `UPDATE ... WHERE` a map that rewrites the
  matching rows, and a primary-key violation is detected by a membership
  test (the transaction then rolls back, leaving the table lists as they
  were).
- ISO-8601 UTC timestamp strings compare lexicographically exactly in
  chronological order, so timestamps are modelled as `Nat` supplied by the
  caller (`datetime.now` is an external input).
- float32 vectors round-trip exactly through `tobytes`/`frombuffer`, so an
  embedding BLOB is modelled as the decoded vector, a `List ℚ`.
- `zlib.compress`/`zlib.decompress` and UTF-8 encode/decode are external
  lossless primitives; they are passed as function parameters and the
  theorems that need them assume their documented round-trip contract at
  the relevant input.  The hex codec (`bytes.hex` / `bytes.fromhex`) is
  implemented concretely and proved correct.
-/

namespace AngelMemory

/-! ## Codec
Embeds `_compress_content` / `_decompress_content`, identical in
`src/modules/memory_store.py` lines 84-95 and
`src/FIXES/memory_store_fix.py` lines 130-141. -/

/-- `COMPRESSION_THRESHOLD = 1024` from both store modules. -/
def COMPRESSION_THRESHOLD : Nat := 1024

/-- Lower-case hex digit for a value below 16, as produced by Python
`bytes.hex()` (codepoint 48 is the digit 0, codepoint 97 is the letter a). -/
def hexDigit (n : Nat) : Char :=
  if n < 10 then Char.ofNat (48 + n) else Char.ofNat (87 + n)

/-- Numeric value of a lower-case hex digit, as accepted by
Python `bytes.fromhex`. -/
def hexVal (c : Char) : Nat :=
  if 97 ≤ c.toNat then c.toNat - 87 else c.toNat - 48

/-- `bytes.hex()`: two lower-case hex digits per byte. -/
def hexEncodeBytes (l : List Nat) : List Char :=
  (l.map (fun b => [hexDigit (b / 16), hexDigit (b % 16)])).flatten

/-- `compressed.hex()` on a byte string, returned as a Lean string. -/
def hexEncode (l : List Nat) : String :=
  String.mk (hexEncodeBytes l)

/-- `bytes.fromhex`: consume two hex digits per byte. -/
def hexDecodeChars : List Char → List Nat
  | c1 :: c2 :: rest => (16 * hexVal c1 + hexVal c2) :: hexDecodeChars rest
  | _ => []

/-- `bytes.fromhex(content)` on a Lean string. -/
def hexDecode (s : String) : List Nat :=
  hexDecodeChars s.data

/-- `_compress_content(content)`: if the UTF-8 byte length exceeds the
threshold, zlib-compress the UTF-8 bytes and hex-encode the result,
flagging `True`; otherwise pass the content through with `False`.
`zcomp` stands for `zlib.compress` composed with UTF-8 encoding. -/
def compress_content (zcomp : String → List Nat) (content : String) :
    String × Bool :=
  if COMPRESSION_THRESHOLD < content.utf8ByteSize then
    (hexEncode (zcomp content), true)
  else
    (content, false)

/-- `_decompress_content(content, compressed)`: when flagged, hex-decode,
zlib-decompress and UTF-8 decode; otherwise pass through.  `zdecomp`
stands for UTF-8 decoding composed with `zlib.decompress`. -/
def decompress_content (zdecomp : List Nat → String) (content : String)
    (compressed : Bool) : String :=
  if compressed then zdecomp (hexDecode content) else content

/-- A 1025-character content whose UTF-8 encoding exceeds the 1KB
threshold, so the compressed branch of the codec is exercised. -/
def c4_content : String := String.mk (List.replicate 1025 'A')

/-- A concrete lossless byte encoder standing in for zlib composed with
UTF-8 encoding in the round-trip witness. -/
def c4_zcomp (s : String) : List Nat := s.data.map Char.toNat

/-- The inverse decoder of `c4_zcomp`. -/
def c4_zdecomp (l : List Nat) : String := String.mk (l.map Char.ofNat)

/-! ## The multi-user store `MemoryStoreFixed`
Embeds `src/FIXES/memory_store_fix.py`.  Table rows follow the schema at
the top of that file; opaque inputs of the Python code (current time,
`np.random.randn` draw, generated id, compressor) are parameters. -/

/-- A row of the `memories` table (schema lines 29-43 of
`memory_store_fix.py`).  Timestamps are `Nat` (ISO strings order
lexicographically = chronologically); `metadata` is the stored JSON text,
opaque to the store. -/
structure MemRow where
  id : String
  uid : String
  content : String
  metadata : String
  created_at : Nat
  updated_at : Nat
  deleted_at : Option Nat
  compressed : Bool
  version : Nat
deriving DecidableEq, Repr

/-- A row of the `embeddings` table; the BLOB is the decoded float32
vector. -/
structure EmbRow where
  memory_id : String
  uid : String
  embedding : List ℚ
  created_at : Nat
deriving DecidableEq, Repr

/-- A row of the `audit_log` table (autoincrement id omitted; the list
position plays that role). -/
structure AuditRow where
  uid : String
  action : String
  memory_id : Option String
  timestamp : Nat
  details : String
deriving DecidableEq, Repr

/-- The database state of a `MemoryStoreFixed` instance. -/
structure FixedStore where
  users : List String
  memories : List MemRow
  embeddings : List EmbRow
  audit_log : List AuditRow
deriving DecidableEq, Repr

/-- Python `not s or not s.strip()`: true exactly for empty or
whitespace-only strings (an empty string is vacuously all-whitespace). -/
def isBlank (s : String) : Bool :=
  s.data.all Char.isWhitespace

namespace FixedStore

/-- `_ensure_user_exists`: `INSERT OR IGNORE INTO users`. -/
def ensure_user_exists (st : FixedStore) (uid : String) : FixedStore :=
  if uid ∈ st.users then st
  else { st with users := st.users ++ [uid] }

/-- `_audit_log`: append a row to `audit_log` (failures are swallowed in
the source; the success path is modelled). -/
def audit_insert (st : FixedStore) (uid action : String)
    (memory_id : Option String) (details : String) (now : Nat) : FixedStore :=
  { st with audit_log := st.audit_log ++ [⟨uid, action, memory_id, now, details⟩] }

/-- True when the `memories` table already holds a row with primary key
`(id, uid)` — the condition under which the `INSERT` of `add_memory`
raises `sqlite3.IntegrityError`. -/
def memKeyTaken (st : FixedStore) (mid uid : String) : Bool :=
  st.memories.any (fun r => r.id == mid && r.uid == uid)

/-- True when the `embeddings` table already holds primary key
`(memory_id, uid)`. -/
def embKeyTaken (st : FixedStore) (mid uid : String) : Bool :=
  st.embeddings.any (fun e => e.memory_id == mid && e.uid == uid)

/-- `add_memory(uid, content, metadata, memory_id)` of `MemoryStoreFixed`
(lines 143-199).  `gen_id` models the generated
`mem_uid_timestamp` id used when `memory_id` is absent, `now` the
server-side timestamp, and `rand_embedding` the vector drawn by
`np.random.randn(self.dimension)` — the source never consults the
Embedder here (its comment reads: Simulate embedding, in production use
actual embedder).  On an `IntegrityError` the transaction rolls back, so
the `memories`/`embeddings` tables are returned unchanged (the separate
`users` upsert of `_ensure_user_exists` has already committed). -/
def add_memory (zcomp : String → List Nat) (st : FixedStore)
    (uid content metadata : String) (memory_id : Option String)
    (gen_id : String) (now : Nat) (rand_embedding : List ℚ) :
    FixedStore × Bool :=
  if isBlank content then (st, false)
  else if isBlank uid then (st, false)
  else
    let st1 := ensure_user_exists st uid
    let pc := compress_content zcomp content
    let mid := memory_id.getD gen_id
    if memKeyTaken st1 mid uid || embKeyTaken st1 mid uid then
      (st1, false)
    else
      let row : MemRow :=
        { id := mid, uid := uid, content := pc.1, metadata := metadata,
          created_at := now, updated_at := now, deleted_at := none,
          compressed := pc.2, version := 1 }
      let emb : EmbRow :=
        { memory_id := mid, uid := uid, embedding := rand_embedding,
          created_at := now }
      let st2 : FixedStore :=
        { st1 with
          memories := st1.memories ++ [row]
          embeddings := st1.embeddings ++ [emb] }
      (audit_insert st2 uid "CREATE" (some mid) "Created memory version 1" now,
       true)

/-- The `WHERE id = ? AND uid = ? AND deleted_at IS NULL` predicate used
by `update_memory`, `get_memory` and the ownership check. -/
def activeKey (mid uid : String) (r : MemRow) : Bool :=
  r.id == mid && r.uid == uid && r.deleted_at.isNone

/-- `update_memory(uid, memory_id, content, metadata)` (lines 201-261):
reject blank content; read the current version of the active owned row
(failure if absent); then rewrite the memory row (new content, metadata,
`updated_at`, compression flag, version + 1) and the embedding row
(fresh `np.random.randn` vector, modelled by `rand_embedding`). -/
def update_memory (zcomp : String → List Nat) (st : FixedStore)
    (uid memory_id content metadata : String) (now : Nat)
    (rand_embedding : List ℚ) : FixedStore × Bool :=
  if isBlank content then (st, false)
  else
    let st1 := ensure_user_exists st uid
    match st1.memories.find? (activeKey memory_id uid) with
    | none => (st1, false)
    | some row =>
        let new_version := row.version + 1
        let pc := compress_content zcomp content
        let mems := st1.memories.map (fun r =>
          if activeKey memory_id uid r then
            { r with content := pc.1, metadata := metadata,
                     updated_at := now, compressed := pc.2,
                     version := new_version }
          else r)
        let embs := st1.embeddings.map (fun e =>
          if e.memory_id == memory_id && e.uid == uid then
            { e with embedding := rand_embedding, created_at := now }
          else e)
        (audit_insert { st1 with memories := mems, embeddings := embs }
          uid "UPDATE" (some memory_id) "Updated version" now, true)

/-- `soft_delete_memory(uid, memory_id)` (lines 263-290): the SQL is
`UPDATE memories SET deleted_at = ? WHERE id = ? AND uid = ? RETURNING id`
— note there is no `deleted_at IS NULL` conjunct, so an already
soft-deleted row also matches and has its `deleted_at` overwritten. -/
def soft_delete_memory (st : FixedStore) (uid memory_id : String)
    (now : Nat) : FixedStore × Bool :=
  if st.memories.any (fun r => r.id == memory_id && r.uid == uid) then
    let mems := st.memories.map (fun r =>
      if r.id == memory_id && r.uid == uid then
        { r with deleted_at := some now }
      else r)
    (audit_insert { st with memories := mems } uid "DELETE"
      (some memory_id) "Soft deleted" now, true)
  else (st, false)

/-- The dictionary shape returned by `get_memory` / `get_user_memories`:
the six selected columns, with `content` exactly as stored (the source
does not decompress on read; its `_decompress_content` is never called). -/
structure MemoryDict where
  id : String
  content : String
  metadata : String
  created_at : Nat
  updated_at : Nat
  version : Nat
deriving DecidableEq, Repr

/-- Row-to-dictionary projection used by both read paths. -/
def toDict (r : MemRow) : MemoryDict :=
  { id := r.id, content := r.content, metadata := r.metadata,
    created_at := r.created_at, updated_at := r.updated_at,
    version := r.version }

/-- Stable insertion step for `ORDER BY updated_at DESC`; a deterministic
refinement of the SQL ordering (no claim settled over this store depends
on the order of rows with equal `updated_at`). -/
def insertByUpdatedDesc (r : MemRow) : List MemRow → List MemRow
  | [] => [r]
  | y :: ys =>
      if y.updated_at ≤ r.updated_at then r :: y :: ys
      else y :: insertByUpdatedDesc r ys

/-- `get_user_memories(uid, limit, offset)` (lines 292-329):
`WHERE uid = ? AND deleted_at IS NULL ORDER BY updated_at DESC LIMIT ?
OFFSET ?`. -/
def get_user_memories (st : FixedStore) (uid : String)
    (limit offset : Nat) : List MemoryDict :=
  let rows := st.memories.filter
    (fun r => r.uid == uid && r.deleted_at.isNone)
  let sorted := rows.foldr insertByUpdatedDesc []
  ((sorted.drop offset).take limit).map toDict

/-- `get_memory(uid, memory_id)` (lines 331-365):
`WHERE id = ? AND uid = ? AND deleted_at IS NULL`, one row or `None`.
The stored `content` is returned as-is, never decompressed. -/
def get_memory (st : FixedStore) (uid memory_id : String) :
    Option MemoryDict :=
  (st.memories.find? (activeKey memory_id uid)).map toDict

/-- The attribute lookup `timezone.utc.timedelta` performed by
`purge_deleted` (line 376): `datetime.timezone` instances have no
`timedelta` attribute (the function lives in the `datetime` module), so
the lookup raises `AttributeError`; hence this model is `none`. -/
def timezone_utc_timedelta : Option (Nat → Nat) := none

/-- `purge_deleted(uid, days_old)` (lines 367-394): the first statement
of the `try` block evaluates `timezone.utc.timedelta(days=days_old)`,
which raises `AttributeError` before any database access; the
`except Exception` handler then returns 0.  The intended branch (kept for
reference as the `some` arm) would delete the soft-deleted rows of `uid`
older than the cutoff from `memories` only. -/
def purge_deleted (st : FixedStore) (uid : String) (days_old now : Nat) :
    FixedStore × Nat :=
  match timezone_utc_timedelta with
  | none => (st, 0)
  | some timedelta =>
      let cutoff := now - timedelta days_old
      let stale := fun (r : MemRow) =>
        r.uid == uid && r.deleted_at.any (fun d => d < cutoff)
      let keep := st.memories.filter (fun r => !(stale r))
      let cnt := st.memories.length - keep.length
      let st1 := { st with memories := keep }
      (if 0 < cnt then
        audit_insert st1 uid "PURGE" none "Permanently deleted old records" now
       else st1, cnt)

/-! ### Basic facts about the model -/

/-- Invariant 1 of the spec: `(id, uid)` identifies at most one row of the
`memories` table. -/
def PKUnique (st : FixedStore) : Prop :=
  List.Pairwise (fun a b => ¬(a.id = b.id ∧ a.uid = b.uid)) st.memories

/-- A store holding one soft-deleted row under key (m1, u1), used as the
concrete input of the C9 witness. -/
def w9_row : MemRow :=
  { id := "m1", uid := "u1", content := "x", metadata := "",
    created_at := 0, updated_at := 0, deleted_at := some 3,
    compressed := false, version := 1 }

/-- Store for the C9 witness. -/
def w9_st : FixedStore :=
  { users := ["u1"], memories := [w9_row], embeddings := [], audit_log := [] }

/-- The memory row a successful `add_memory` inserts (spelled out for
reuse in lemma statements; identical to the literal in `add_memory`). -/
def added_row (zcomp : String → List Nat) (mid uid content metadata : String)
    (now : Nat) : MemRow :=
  { id := mid, uid := uid, content := (compress_content zcomp content).1,
    metadata := metadata, created_at := now, updated_at := now,
    deleted_at := none, compressed := (compress_content zcomp content).2,
    version := 1 }

/-- Store for the C2 witness: one active row for each of two users. -/
def w2_st : FixedStore :=
  { users := ["u1", "u2"]
    memories :=
      [{ id := "a", uid := "u1", content := "ca", metadata := "",
         created_at := 1, updated_at := 1, deleted_at := none,
         compressed := false, version := 1 },
       { id := "b", uid := "u2", content := "cb", metadata := "",
         created_at := 2, updated_at := 2, deleted_at := none,
         compressed := false, version := 1 }]
    embeddings := []
    audit_log := [] }

/-! ### C5: purge_deleted -/

/-- A soft-deleted row whose `deleted_at` (1) lies far before the cutoff
that `purge_deleted uid 30` at `now = 100` would compute. -/
def c5_row : MemRow :=
  { id := "m1", uid := "u1", content := "x", metadata := "",
    created_at := 1, updated_at := 1, deleted_at := some 1,
    compressed := false, version := 1 }

/-- Store holding only the stale soft-deleted row `c5_row`. -/
def c5_st : FixedStore :=
  { users := ["u1"], memories := [c5_row],
    embeddings := [⟨"m1", "u1", [], 1⟩], audit_log := [] }

/-! ### C6: soft_delete_memory -/

/-- A row already soft-deleted at time 1, for the C6 counterexample. -/
def c6_row : MemRow :=
  { id := "m1", uid := "u1", content := "x", metadata := "",
    created_at := 0, updated_at := 0, deleted_at := some 1,
    compressed := false, version := 4 }

/-- Store holding the already-soft-deleted row `c6_row`. -/
def c6_st : FixedStore :=
  { users := ["u1"], memories := [c6_row],
    embeddings := [⟨"m1", "u1", [], 0⟩], audit_log := [] }

/-- The `memories` table after the `UPDATE ... SET deleted_at = ?` of
`soft_delete_memory` has run (spelled out for lemma statements). -/
def stampDeleted (st : FixedStore) (uid mid : String) (now : Nat) :
    FixedStore :=
  { st with
    memories := st.memories.map (fun r =>
      if r.id == mid && r.uid == uid then { r with deleted_at := some now }
      else r) }

/-- Store with one active row for the C6 amended-claim witness. -/
def w6_st : FixedStore :=
  { users := ["u1"]
    memories :=
      [{ id := "m1", uid := "u1", content := "x", metadata := "",
         created_at := 0, updated_at := 0, deleted_at := none,
         compressed := false, version := 1 }]
    embeddings := [⟨"m1", "u1", [], 0⟩]
    audit_log := [] }

/-! ### C1: add_memory and the Embedder -/

/-- The empty database state, as `_init_database` leaves a fresh store. -/
def empty_store : FixedStore :=
  { users := [], memories := [], embeddings := [], audit_log := [] }

/-! ### C7: get_memory and compression -/

/-- The 2000-character content of the spec's concrete scenario 4. -/
def c7_content : String := String.mk (List.replicate 2000 'A')

/-! ### C3: version tracking -/

/-- The tables after the two `INSERT`s of a successful `add_memory`. -/
def inserted (zc : String → List Nat) (st1 : FixedStore)
    (mid uid c md : String) (now : Nat) (rand : List ℚ) : FixedStore :=
  { st1 with
    memories := st1.memories ++ [added_row zc mid uid c md now]
    embeddings := st1.embeddings ++ [EmbRow.mk mid uid rand now] }

/-- The row rewrite performed by the `UPDATE memories SET ...` of
`update_memory`: new content, metadata, `updated_at`, compression flag
and version, all other columns kept. -/
def updatedRow (zc : String → List Nat) (c md : String) (now newv : Nat)
    (x : MemRow) : MemRow :=
  { x with content := (compress_content zc c).1, metadata := md,
           updated_at := now, compressed := (compress_content zc c).2,
           version := newv }

/-- The version column of the active row with key `(mid, uid)`, if any. -/
def versionOf (st : FixedStore) (mid uid : String) : Option Nat :=
  (st.memories.find? (activeKey mid uid)).map MemRow.version

/-- Folding a list of `update_memory` payloads
(content, metadata, timestamp, random vector) over a store. -/
def apply_updates (zc : String → List Nat) (uid mid : String) :
    FixedStore → List (String × String × Nat × List ℚ) → FixedStore
  | st, [] => st
  | st, u :: rest =>
      apply_updates zc uid mid
        (update_memory zc st uid mid u.1 u.2.1 u.2.2.1 u.2.2.2).1 rest

/-- The two update payloads of the C3 witness run. -/
def w3_updates : List (String × String × Nat × List ℚ) :=
  [("x", "", 1, []), ("y", "", 2, [])]

end FixedStore

/-! ## The single-user store `MemoryStore` and `MemoryEmbedder`
Embeds `src/modules/memory_store.py` and the similarity machinery of
`src/modules/memory_embedder.py`.  Embedding vectors are lists of exact
rationals; the cosine similarity lives in `ℝ` because it divides by a
product of Euclidean norms (`np.linalg.norm`), so the search definitions
are noncomputable — the claims about them are order/shape properties, not
floating-point rounding properties. -/

/-- A row of this store's `memories` table (single-user schema:
`id TEXT PRIMARY KEY`). -/
structure SMem where
  id : String
  content : String
  metadata : String
  created_at : Nat
  compressed : Bool
deriving DecidableEq, Repr

/-- A row of this store's `embeddings` table
(`memory_id TEXT PRIMARY KEY`). -/
structure SEmb where
  memory_id : String
  embedding : List ℚ
deriving DecidableEq, Repr

/-- The database state of a `MemoryStore` instance. -/
structure SingleStore where
  memories : List SMem
  embeddings : List SEmb
deriving DecidableEq, Repr

/-- Placeholder row for the Python list indexing
`self._memories_cache[idx]`; never reached when the caches are aligned
(`idx` ranges over the embedding matrix, whose length equals the memory
list's). -/
def defaultSMem : SMem :=
  { id := "", content := "", metadata := "", created_at := 0,
    compressed := false }

namespace MemoryEmbedder

/-- `np.dot` on equal-length vectors. -/
def dotProduct (a b : List ℚ) : ℚ :=
  (List.zipWith (fun x y => x * y) a b).sum

/-- `np.linalg.norm`: the Euclidean norm. -/
noncomputable def norm (a : List ℚ) : ℝ :=
  Real.sqrt ((dotProduct a a : ℚ) : ℝ)

/-- `MemoryEmbedder.cosine_similarity` (lines 222-237): 0.0 when either
norm is zero, otherwise the dot product over the product of norms. -/
noncomputable def cosine_similarity (a b : List ℚ) : ℝ :=
  if norm a = 0 ∨ norm b = 0 then 0
  else ((dotProduct a b : ℚ) : ℝ) / (norm a * norm b)

/-- One insertion step of a stable descending sort by similarity,
matching `list.sort(key=..., reverse=True)` (equal keys keep their
original order: the earlier element is placed in front). -/
noncomputable def insertDescBySim (x : Nat × ℝ) :
    List (Nat × ℝ) → List (Nat × ℝ)
  | [] => [x]
  | y :: ys => if y.2 ≤ x.2 then x :: y :: ys else y :: insertDescBySim x ys

/-- Stable descending sort by similarity. -/
noncomputable def sortDescBySim (l : List (Nat × ℝ)) : List (Nat × ℝ) :=
  l.foldr insertDescBySim []

/-- `MemoryEmbedder.find_similar` (lines 239-255): score every candidate
by index, sort descending by similarity, return the first `top_k`. -/
noncomputable def find_similar (query : List ℚ) (cands : List (List ℚ))
    (top_k : Nat) : List (Nat × ℝ) :=
  (sortDescBySim (cands.enum.map
    (fun p => (p.1, cosine_similarity query p.2)))).take top_k

end MemoryEmbedder

namespace SingleStore

/-- One entry of the list `MemoryStore.search` returns: the cached
memory dictionary with its `similarity_score` attached. -/
structure SearchResult where
  memory : SMem
  similarity_score : ℝ

/-- `MemoryStore.add_memory` (lines 153-218): reject blank content; ask
the Embedder (`embedding` is its `embed_text` result — `none` models a
null return and fails before anything is persisted); compress; insert the
memory row and exactly the embedder's vector in one transaction; a
duplicate id rolls back and reports false. -/
def add_memory (zcomp : String → List Nat) (st : SingleStore)
    (content metadata : String) (embedding : Option (List ℚ))
    (memory_id : Option String) (gen_id : String) (now : Nat) :
    SingleStore × Bool :=
  if isBlank content then (st, false)
  else
    match embedding with
    | none => (st, false)
    | some emb =>
        let pc := compress_content zcomp content
        let mid := memory_id.getD gen_id
        if st.memories.any (fun r => r.id == mid)
            || st.embeddings.any (fun e => e.memory_id == mid) then
          (st, false)
        else
          ({ memories := st.memories ++ [SMem.mk mid pc.1 metadata now pc.2],
             embeddings := st.embeddings ++ [SEmb.mk mid emb] }, true)

/-- `MemoryStore.get_by_id` (lines 300-320): the row by id, with its
content decompressed (this variant, unlike `MemoryStoreFixed.get_memory`,
does call `_decompress_content`). -/
def get_by_id (zdecomp : List Nat → String) (st : SingleStore)
    (memory_id : String) : Option SMem :=
  (st.memories.find? (fun r => r.id == memory_id)).map
    (fun r => { r with
      content := decompress_content zdecomp r.content r.compressed })

/-- `MemoryStore.search` (lines 252-298) over the loaded caches: empty
store → empty result; failed query embedding → empty result; otherwise
`find_similar` over the embedding matrix (sort descending, take `top_k`),
then drop every entry below `min_similarity` and attach each score to its
cached memory. -/
noncomputable def search (mems : List SMem) (embs : List (List ℚ))
    (query_embedding : Option (List ℚ)) (top_k : Nat)
    (min_similarity : ℝ) : List SearchResult :=
  if mems.isEmpty then []
  else
    match query_embedding with
    | none => []
    | some q =>
        ((MemoryEmbedder.find_similar q embs top_k).filter
          (fun p => min_similarity ≤ p.2)).map
          (fun p => SearchResult.mk (mems.getD p.1 defaultSMem) p.2)

/-- The single cached memory of the C8 witness store. -/
def w8_mem : SMem :=
  { id := "m", content := "hello world", metadata := "", created_at := 0,
    compressed := false }

end SingleStore

/-! ### C10: the two cache-loading queries -/

/-- `_load_memories_cache` (memory_store.py lines 97-120) runs
`SELECT ... FROM memories ORDER BY created_at DESC`.  SQL fixes only the
weak descending order — the relative order of rows with equal
`created_at` is unspecified — so the possible results are exactly the
sorted permutations of the table. -/
def memories_query_consistent (db : SingleStore) (out : List SMem) :
    Prop :=
  out.Perm db.memories ∧
  out.Pairwise (fun a b => b.created_at ≤ a.created_at)

/-- The sort key of `_load_embeddings_cache` (lines 122-142):
`ORDER BY (SELECT created_at FROM memories WHERE id = memory_id) DESC` —
the owning memory's `created_at` (0 stands for the NULL of a dangling
`memory_id`; the alignment theorem assumes every embedding resolves). -/
def embKey (db : SingleStore) (e : SEmb) : Nat :=
  ((db.memories.find? (fun m => m.id == e.memory_id)).map
    SMem.created_at).getD 0

/-- Possible results of the embeddings-cache query: any permutation of
the `embeddings` table weakly descending on the owning memory's
`created_at`. -/
def embeddings_query_consistent (db : SingleStore) (out : List SEmb) :
    Prop :=
  out.Perm db.embeddings ∧
  out.Pairwise (fun a b => embKey db b ≤ embKey db a)

/-- The memory row a given id resolves to
(`SELECT created_at FROM memories WHERE id = ?` as a row lookup). -/
def memLookup (db : SingleStore) (i : String) : SMem :=
  (db.memories.find? (fun m => m.id == i)).getD defaultSMem

namespace SingleStore

/-- First C10 counterexample row: created at tick 5. -/
def c10_m1 : SMem :=
  { id := "m1", content := "a", metadata := "", created_at := 5,
    compressed := false }

/-- Second C10 counterexample row: also created at tick 5. -/
def c10_m2 : SMem :=
  { id := "m2", content := "b", metadata := "", created_at := 5,
    compressed := false }

/-- Database with two memories sharing `created_at` and their two
embeddings. -/
def c10_db : SingleStore :=
  { memories := [c10_m1, c10_m2],
    embeddings := [SEmb.mk "m1" [], SEmb.mk "m2" []] }

/-- First C10 witness row: created at tick 9. -/
def w10_m1 : SMem :=
  { id := "m1", content := "a", metadata := "", created_at := 9,
    compressed := false }

/-- Second C10 witness row: created at tick 3. -/
def w10_m2 : SMem :=
  { id := "m2", content := "b", metadata := "", created_at := 3,
    compressed := false }

/-- Database for the C10 witness: distinct `created_at`, one embedding
per memory. -/
def w10_db : SingleStore :=
  { memories := [w10_m1, w10_m2],
    embeddings := [SEmb.mk "m2" [], SEmb.mk "m1" []] }

end SingleStore

end AngelMemory

/-! ## Theorems -/

namespace AngelMemory

theorem hexVal_hexDigit (n : Nat) (h : n < 16) : hexVal (hexDigit n) = n := by
  interval_cases n <;> decide

theorem hexDecodeChars_append (b : Nat) (t : List Char) (hb : b < 256) :
    hexDecodeChars (hexDigit (b / 16) :: hexDigit (b % 16) :: t) =
      b :: hexDecodeChars t := by
  have h1 : b / 16 < 16 := Nat.div_lt_of_lt_mul (by omega)
  have h2 : b % 16 < 16 := Nat.mod_lt _ (by omega)
  simp only [hexDecodeChars, hexVal_hexDigit _ h1, hexVal_hexDigit _ h2]
  have hval : 16 * (b / 16) + b % 16 = b := by omega
  rw [hval]

theorem hexDecode_hexEncode (l : List Nat) (h : ∀ b ∈ l, b < 256) :
    hexDecode (hexEncode l) = l := by
  simp only [hexDecode, hexEncode]
  induction l with
  | nil => rfl
  | cons b t ih =>
      have hb : b < 256 := h b (List.mem_cons_self b t)
      have ht : ∀ x ∈ t, x < 256 := fun x hx => h x (List.mem_cons_of_mem b hx)
      simp only [hexEncodeBytes, List.map_cons, List.flatten_cons,
        List.cons_append, List.nil_append] at ih ⊢
      rw [hexDecodeChars_append b _ hb]
      exact congrArg (b :: ·) (ih ht)

/-- C4: for every content string, decompressing the
(payload, isCompressed) pair produced by compress yields exactly the
original string — both for inputs whose UTF-8 encoding is at most 1024
bytes (passed through uncompressed) and for larger inputs
(zlib-compressed and hex-encoded).  `zcomp`/`zdecomp` model
`zlib.compress` after UTF-8 encoding and its inverse; the hypotheses are
exactly the documented round-trip contract of zlib and UTF-8 at this
input, plus the fact that zlib produces bytes. -/
theorem compress_decompress_roundtrip (zcomp : String → List Nat)
    (zdecomp : List Nat → String) (content : String)
    (hz : zdecomp (zcomp content) = content)
    (hb : ∀ b ∈ zcomp content, b < 256) :
    decompress_content zdecomp (compress_content zcomp content).1
      (compress_content zcomp content).2 = content := by
  by_cases h : COMPRESSION_THRESHOLD < content.utf8ByteSize
  · simp [compress_content, decompress_content, h,
      hexDecode_hexEncode _ hb, hz]
  · simp [compress_content, decompress_content, h]

/-- Every byte the witness codec emits for the witness content is below
256 (each character is the letter A, codepoint 65). -/
theorem c4_bytes_lt : ∀ b ∈ c4_zcomp c4_content, b < 256 := by
  intro b hb
  simp only [c4_zcomp, c4_content, List.mem_map] at hb
  obtain ⟨c, hc, rfl⟩ := hb
  have : c = 'A' := List.eq_of_mem_replicate hc
  subst this
  decide

set_option maxRecDepth 100000 in
/-- Witness for C4 at a concrete 1025-byte input: the round-trip
hypotheses hold for the concrete codec and the compressed payload
decompresses to the original string. -/
theorem compress_decompress_roundtrip_witness :
    (c4_zdecomp (c4_zcomp c4_content) = c4_content ∧
      ∀ b ∈ c4_zcomp c4_content, b < 256) ∧
    decompress_content c4_zdecomp
      (compress_content c4_zcomp c4_content).1
      (compress_content c4_zcomp c4_content).2 = c4_content :=
  ⟨⟨by decide, c4_bytes_lt⟩,
    compress_decompress_roundtrip c4_zcomp c4_zdecomp c4_content
      (by decide) c4_bytes_lt⟩

namespace FixedStore

theorem ensure_user_memories (st : FixedStore) (uid : String) :
    (ensure_user_exists st uid).memories = st.memories := by
  unfold ensure_user_exists
  split <;> rfl

theorem ensure_user_embeddings (st : FixedStore) (uid : String) :
    (ensure_user_exists st uid).embeddings = st.embeddings := by
  unfold ensure_user_exists
  split <;> rfl

theorem memKeyTaken_of_mem {st : FixedStore} {mid uid : String}
    (r : MemRow) (hr : r ∈ st.memories) (h1 : r.id = mid)
    (h2 : r.uid = uid) : memKeyTaken st mid uid = true := by
  unfold memKeyTaken
  rw [List.any_eq_true]
  exact ⟨r, hr, by simp [h1, h2]⟩

theorem not_key_of_memKeyTaken_false {st : FixedStore} {mid uid : String}
    (h : memKeyTaken st mid uid = false) :
    ∀ r ∈ st.memories, ¬(r.id = mid ∧ r.uid = uid) := by
  unfold memKeyTaken at h
  rw [List.any_eq_false] at h
  rintro r hr ⟨h1, h2⟩
  have := h r hr
  simp [h1, h2] at this

/-- C9: adding a memory whose `(id, uid)` already identifies a row —
soft-deleted or not — returns false and leaves the `memories` and
`embeddings` tables exactly as they were (the `INSERT` hits the
`PRIMARY KEY (id, uid)` constraint and the transaction rolls back); and
`add_memory` preserves the at-most-one-row-per-`(id, uid)` invariant. -/
theorem add_memory_duplicate_id (zcomp : String → List Nat)
    (st : FixedStore) (uid content metadata mid gen_id : String)
    (now : Nat) (rand : List ℚ) :
    ((∃ r, r ∈ st.memories ∧ r.id = mid ∧ r.uid = uid) →
      (add_memory zcomp st uid content metadata (some mid) gen_id now rand).2
          = false ∧
      (add_memory zcomp st uid content metadata (some mid) gen_id now
          rand).1.memories = st.memories ∧
      (add_memory zcomp st uid content metadata (some mid) gen_id now
          rand).1.embeddings = st.embeddings) ∧
    (PKUnique st →
      PKUnique (add_memory zcomp st uid content metadata (some mid) gen_id
        now rand).1) := by
  constructor
  · rintro ⟨r, hr, h1, h2⟩
    unfold add_memory
    cases hbc : isBlank content with
    | true => simp
    | false =>
        cases hbu : isBlank uid with
        | true => simp
        | false =>
            have hmem := ensure_user_memories st uid
            have htaken : memKeyTaken (ensure_user_exists st uid) mid uid
                = true :=
              memKeyTaken_of_mem r (by rw [hmem]; exact hr) h1 h2
            simp [htaken, hmem, ensure_user_embeddings]
  · intro hpk
    unfold add_memory
    dsimp only
    split
    · exact hpk
    split
    · exact hpk
    split
    · unfold PKUnique
      rw [ensure_user_memories]
      exact hpk
    next hguard =>
      simp only [Option.getD_some] at hguard ⊢
      simp only [Bool.or_eq_true, not_or, Bool.not_eq_true] at hguard
      obtain ⟨htk, hek⟩ := hguard
      have hnk := not_key_of_memKeyTaken_false htk
      rw [ensure_user_memories] at hnk
      unfold PKUnique audit_insert
      dsimp only
      simp only [ensure_user_memories]
      rw [List.pairwise_append]
      refine ⟨hpk, List.pairwise_singleton _ _, ?_⟩
      intro a ha b hb
      rw [List.mem_singleton] at hb
      subst hb
      exact hnk a ha

/-- Witness for C9: re-adding id m1 for user u1 — whose previous row is
soft-deleted but not purged — fails and modifies neither table. -/
theorem add_memory_duplicate_id_witness :
    (∃ r, r ∈ w9_st.memories ∧ r.id = "m1" ∧ r.uid = "u1") ∧
    PKUnique w9_st ∧
    ((add_memory (fun _ => []) w9_st "u1" "y" "" (some "m1") "g" 9 []).2
        = false ∧
      (add_memory (fun _ => []) w9_st "u1" "y" "" (some "m1") "g" 9
          []).1.memories = w9_st.memories ∧
      (add_memory (fun _ => []) w9_st "u1" "y" "" (some "m1") "g" 9
          []).1.embeddings = w9_st.embeddings) ∧
    PKUnique (add_memory (fun _ => []) w9_st "u1" "y" "" (some "m1") "g" 9
      []).1 :=
  ⟨⟨w9_row, by decide, rfl, rfl⟩, by unfold PKUnique; decide,
    (add_memory_duplicate_id (fun _ => []) w9_st "u1" "y" "" "m1" "g" 9
      []).1 ⟨w9_row, by decide, rfl, rfl⟩,
    (add_memory_duplicate_id (fun _ => []) w9_st "u1" "y" "" "m1" "g" 9
      []).2 (by unfold PKUnique; decide)⟩

theorem mem_insertByUpdatedDesc {x r : MemRow} :
    ∀ {l : List MemRow}, x ∈ insertByUpdatedDesc r l ↔ x = r ∨ x ∈ l := by
  intro l
  induction l with
  | nil => simp [insertByUpdatedDesc]
  | cons y ys ih =>
      unfold insertByUpdatedDesc
      split
      · simp
      · rw [List.mem_cons, ih, List.mem_cons]
        tauto

theorem mem_sortByUpdatedDesc {x : MemRow} :
    ∀ {l : List MemRow}, x ∈ l.foldr insertByUpdatedDesc [] ↔ x ∈ l := by
  intro l
  induction l with
  | nil => simp
  | cons y ys ih =>
      rw [List.foldr_cons, mem_insertByUpdatedDesc, ih, List.mem_cons]

theorem get_user_memories_provenance (st : FixedStore) (uid : String)
    (limit offset : Nat) :
    ∀ d ∈ get_user_memories st uid limit offset,
      ∃ r, r ∈ st.memories ∧ r.uid = uid ∧ r.deleted_at = none ∧
        d = toDict r := by
  intro d hd
  unfold get_user_memories at hd
  rw [List.mem_map] at hd
  obtain ⟨r, hr, hrd⟩ := hd
  have hr2 : r ∈ (st.memories.filter
      (fun r => r.uid == uid && r.deleted_at.isNone)).foldr
        insertByUpdatedDesc [] :=
    (List.drop_subset _ _) ((List.take_subset _ _) hr)
  rw [mem_sortByUpdatedDesc, List.mem_filter] at hr2
  obtain ⟨hmem, hpred⟩ := hr2
  rw [Bool.and_eq_true, beq_iff_eq, Option.isNone_iff_eq_none] at hpred
  exact ⟨r, hmem, hpred.1, hpred.2, hrd.symm⟩

theorem get_memory_provenance (st : FixedStore) (uid mid : String) :
    ∀ d, get_memory st uid mid = some d →
      ∃ r, r ∈ st.memories ∧ r.uid = uid ∧ r.deleted_at = none ∧
        d = toDict r := by
  intro d hd
  unfold get_memory at hd
  rw [Option.map_eq_some'] at hd
  obtain ⟨r, hr, hrd⟩ := hd
  have hmem := List.mem_of_find?_eq_some hr
  have hpred := List.find?_some hr
  unfold activeKey at hpred
  rw [Bool.and_eq_true, Bool.and_eq_true, beq_iff_eq, beq_iff_eq,
    Option.isNone_iff_eq_none] at hpred
  exact ⟨r, hmem, hpred.1.2, hpred.2, hrd.symm⟩

theorem get_user_memories_only_memories {st1 st2 : FixedStore}
    (h : st1.memories = st2.memories) (uid : String) (limit offset : Nat) :
    get_user_memories st1 uid limit offset
      = get_user_memories st2 uid limit offset := by
  unfold get_user_memories
  rw [h]

theorem get_memory_only_memories {st1 st2 : FixedStore}
    (h : st1.memories = st2.memories) (uid mid : String) :
    get_memory st1 uid mid = get_memory st2 uid mid := by
  unfold get_memory
  rw [h]

/-- After a successful `add_memory` under `uid1`, the `memories` table is
the old one with a single new row owned by `uid1` appended; on failure it
is unchanged. -/
theorem add_memory_memories_shape (zcomp : String → List Nat)
    (st : FixedStore) (uid content metadata : String)
    (memory_id : Option String) (gen_id : String) (now : Nat)
    (rand : List ℚ) :
    (add_memory zcomp st uid content metadata memory_id gen_id now
        rand).1.memories = st.memories ∨
    ∃ row : MemRow, row.uid = uid ∧
      (add_memory zcomp st uid content metadata memory_id gen_id now
        rand).1.memories = st.memories ++ [row] := by
  unfold add_memory
  dsimp only
  split
  · exact Or.inl rfl
  split
  · exact Or.inl rfl
  split
  · exact Or.inl (ensure_user_memories st uid)
  · refine Or.inr ⟨added_row zcomp (memory_id.getD gen_id) uid content
        metadata now, rfl, ?_⟩
    unfold audit_insert added_row
    dsimp only
    rw [ensure_user_memories]

/-- C2: multi-tenant isolation.  Every dictionary returned by
`get_user_memories(uid)` or `get_memory(uid, id)` is the projection of a
stored row whose `uid` column is exactly the queried uid (the SQL of both
reads carries a `uid = ?` conjunct); consequently a memory added under
`uid1 ≠ uid2` is invisible to `uid2`: both reads for `uid2` return
exactly what they returned before the add. -/
theorem multi_tenant_isolation (zcomp : String → List Nat)
    (st : FixedStore) (uid1 uid2 content metadata gen_id mid : String)
    (memory_id : Option String) (now : Nat) (rand : List ℚ)
    (limit offset : Nat) :
    (∀ d ∈ get_user_memories st uid2 limit offset,
      ∃ r, r ∈ st.memories ∧ r.uid = uid2 ∧ r.deleted_at = none ∧
        d = toDict r) ∧
    (∀ d, get_memory st uid2 mid = some d →
      ∃ r, r ∈ st.memories ∧ r.uid = uid2 ∧ r.deleted_at = none ∧
        d = toDict r) ∧
    (uid1 ≠ uid2 →
      get_user_memories (add_memory zcomp st uid1 content metadata
          memory_id gen_id now rand).1 uid2 limit offset
        = get_user_memories st uid2 limit offset ∧
      get_memory (add_memory zcomp st uid1 content metadata memory_id
          gen_id now rand).1 uid2 mid
        = get_memory st uid2 mid) := by
  refine ⟨get_user_memories_provenance st uid2 limit offset,
    get_memory_provenance st uid2 mid, ?_⟩
  intro hne
  rcases add_memory_memories_shape zcomp st uid1 content metadata memory_id
      gen_id now rand with h | ⟨row, hrow, h⟩
  · exact ⟨get_user_memories_only_memories h uid2 limit offset,
      get_memory_only_memories h uid2 mid⟩
  have hbeq : (uid1 == uid2) = false := beq_eq_false_iff_ne.mpr hne
  constructor
  · unfold get_user_memories
    rw [h, List.filter_append]
    have : List.filter (fun r => r.uid == uid2 && r.deleted_at.isNone)
        [row] = [] := by
      simp [List.filter, hrow, hbeq]
    rw [this, List.append_nil]
  · unfold get_memory
    rw [h, List.find?_append]
    have : List.find? (activeKey mid uid2) [row] = none := by
      simp [List.find?, activeKey, hrow, hbeq]
    rw [this, Option.or_none]

/-- Witness for C2 at a concrete two-user store: the isolation theorem
applies with the distinct uids u1 and u2. -/
theorem multi_tenant_isolation_witness :
    "u1" ≠ "u2" ∧
    (get_user_memories (add_memory (fun _ => []) w2_st "u1" "new" ""
        (some "c") "g" 5 []).1 "u2" 100 0
      = get_user_memories w2_st "u2" 100 0 ∧
    get_memory (add_memory (fun _ => []) w2_st "u1" "new" "" (some "c")
        "g" 5 []).1 "u2" "b"
      = get_memory w2_st "u2" "b") :=
  ⟨by decide,
    (multi_tenant_isolation (fun _ => []) w2_st "u1" "u2" "new" "" "g" "b"
      (some "c") 5 [] 100 0).2.2 (by decide)⟩

/-- C5 (code_bug): `purge_deleted` never deletes anything and always
returns 0, for every store, uid and retention window — the expression
`timezone.utc.timedelta(days=days_old)` raises `AttributeError` before
any database access (see `timezone_utc_timedelta`), and the
`except Exception` handler returns 0.  The claim's hard-delete semantics
are unreachable. -/
theorem purge_deleted_always_noop (st : FixedStore) (uid : String)
    (days_old now : Nat) : purge_deleted st uid days_old now = (st, 0) :=
  rfl

/-- Concrete run of the C5 failing input: a 99-tick-old soft-deleted row
survives `purge_deleted` (with its embedding row) and the call reports 0
rows removed. -/
theorem purge_deleted_keeps_stale_row :
    (purge_deleted c5_st "u1" 30 100).1 = c5_st ∧
    (purge_deleted c5_st "u1" 30 100).2 = 0 :=
  ⟨rfl, rfl⟩

/-- C6 counterexample: soft-deleting a row that is already soft-deleted
returns true (the claim says false) and rewrites its `deleted_at` from 1
to 9 (the claim says nothing changes) — the SQL `UPDATE` of
`soft_delete_memory` has no `deleted_at IS NULL` guard. -/
theorem soft_delete_already_deleted_counterexample :
    (soft_delete_memory c6_st "u1" "m1" 9).2 = true ∧
    (soft_delete_memory c6_st "u1" "m1" 9).1.memories
      = [{ c6_row with deleted_at := some 9 }] := by
  constructor <;> decide

/-- C6 amended: `soft_delete_memory(uid, id)` succeeds iff some row with
that `(id, uid)` exists, soft-deleted or not; on success it stamps
`deleted_at := now` on the matching row (keeping every other field and
every other row), refreshing the stamp of an already-deleted row; it
never touches the `embeddings` table; and when no row with that `(id,
uid)` exists — in particular when it is owned by a different uid — it
returns false and changes nothing. -/
theorem soft_delete_spec (st : FixedStore) (uid mid : String) (now : Nat) :
    ((soft_delete_memory st uid mid now).2 = true ↔
      ∃ r, r ∈ st.memories ∧ r.id = mid ∧ r.uid = uid) ∧
    (soft_delete_memory st uid mid now).1.embeddings = st.embeddings ∧
    ((∀ r ∈ st.memories, ¬(r.id = mid ∧ r.uid = uid)) →
      (soft_delete_memory st uid mid now).1 = st) ∧
    (∀ r ∈ st.memories, r.id = mid → r.uid = uid →
      { r with deleted_at := some now } ∈
        (soft_delete_memory st uid mid now).1.memories) ∧
    (∀ r ∈ st.memories, ¬(r.id = mid ∧ r.uid = uid) →
      r ∈ (soft_delete_memory st uid mid now).1.memories) := by
  cases hany : st.memories.any (fun r => r.id == mid && r.uid == uid) with
  | true =>
      have heval : soft_delete_memory st uid mid now
          = (audit_insert (stampDeleted st uid mid now) uid "DELETE"
              (some mid) "Soft deleted" now, true) := by
        unfold soft_delete_memory stampDeleted
        rw [if_pos hany]
      rw [List.any_eq_true] at hany
      obtain ⟨w, hw, hwp⟩ := hany
      rw [Bool.and_eq_true, beq_iff_eq, beq_iff_eq] at hwp
      rw [heval]
      refine ⟨?_, rfl, ?_, ?_, ?_⟩
      · simp only [true_iff]
        exact ⟨w, hw, hwp.1, hwp.2⟩
      · intro hnone
        exact absurd ⟨hwp.1, hwp.2⟩ (hnone w hw)
      · intro r hr h1 h2
        show _ ∈ (stampDeleted st uid mid now).memories
        unfold stampDeleted
        dsimp only
        rw [List.mem_map]
        exact ⟨r, hr, by simp [h1, h2]⟩
      · intro r hr hno
        show _ ∈ (stampDeleted st uid mid now).memories
        unfold stampDeleted
        dsimp only
        rw [List.mem_map]
        refine ⟨r, hr, ?_⟩
        have hf : (r.id == mid && r.uid == uid) = false := by
          cases h1 : r.id == mid with
          | false => rfl
          | true =>
              cases h2 : r.uid == uid with
              | false => rfl
              | true =>
                  exact absurd ⟨beq_iff_eq.mp h1, beq_iff_eq.mp h2⟩ hno
        simp [hf]
  | false =>
      have heval : soft_delete_memory st uid mid now = (st, false) := by
        unfold soft_delete_memory
        rw [if_neg]
        rw [hany]
        exact Bool.false_ne_true
      rw [List.any_eq_false] at hany
      rw [heval]
      refine ⟨?_, rfl, fun _ => rfl, ?_, fun r hr _ => hr⟩
      · simp only [Bool.false_eq_true, false_iff]
        rintro ⟨r, hr, h1, h2⟩
        have := hany r hr
        simp [h1, h2] at this
      · intro r hr h1 h2
        have := hany r hr
        simp [h1, h2] at this

/-- Witness for the amended C6 at a concrete store. -/
theorem soft_delete_spec_witness :
    ((soft_delete_memory w6_st "u1" "m1" 5).2 = true ↔
      ∃ r, r ∈ w6_st.memories ∧ r.id = "m1" ∧ r.uid = "u1") ∧
    (soft_delete_memory w6_st "u1" "m1" 5).1.embeddings
      = w6_st.embeddings ∧
    ((∀ r ∈ w6_st.memories, ¬(r.id = "m1" ∧ r.uid = "u1")) →
      (soft_delete_memory w6_st "u1" "m1" 5).1 = w6_st) ∧
    (∀ r ∈ w6_st.memories, r.id = "m1" → r.uid = "u1" →
      { r with deleted_at := some 5 } ∈
        (soft_delete_memory w6_st "u1" "m1" 5).1.memories) ∧
    (∀ r ∈ w6_st.memories, ¬(r.id = "m1" ∧ r.uid = "u1") →
      r ∈ (soft_delete_memory w6_st "u1" "m1" 5).1.memories) :=
  soft_delete_spec w6_st "u1" "m1" 5

/-- C1 (code_bug): `MemoryStoreFixed.add_memory` never consults the
Embedder — no embedding input appears in its model because the source
draws `np.random.randn(self.dimension)` instead (modelled by the `rand`
parameter).  Whatever vector that draw produces, even when a real
Embedder would have returned null for the content, the call succeeds and
persists exactly the random draw as the Embedding row, so the claimed
guarantee (null embedding → failure; persisted vector = the Embedder's
output for the content) does not hold for this store. -/
theorem add_memory_persists_random_vector (rand : List ℚ) :
    (add_memory (fun _ => []) empty_store "u1" "hello" "" (some "m1") "g"
        7 rand).2 = true ∧
    (add_memory (fun _ => []) empty_store "u1" "hello" "" (some "m1") "g"
        7 rand).1.embeddings
      = [{ memory_id := "m1", uid := "u1", embedding := rand, created_at := 7 }] :=
  ⟨rfl, rfl⟩

theorem utf8ByteSize_go_replicate_A (n : Nat) :
    String.utf8ByteSize.go (List.replicate n 'A') = n := by
  induction n with
  | zero => rfl
  | succ k ih =>
      rw [List.replicate_succ]
      show String.utf8ByteSize.go (List.replicate k 'A') + 'A'.utf8Size = k + 1
      rw [ih]
      have h : 'A'.utf8Size = 1 := rfl
      omega

theorem c7_content_utf8ByteSize : c7_content.utf8ByteSize = 2000 :=
  utf8ByteSize_go_replicate_A 2000

theorem c7_compress : compress_content c4_zcomp c7_content
    = (hexEncode (c4_zcomp c7_content), true) := by
  unfold compress_content
  rw [if_pos]
  rw [c7_content_utf8ByteSize]
  norm_num [COMPRESSION_THRESHOLD]

/-- Evaluation of `add_memory` on the empty store with an explicit id:
validation passes, no primary key is taken, so the row and embedding are
inserted and a CREATE audit entry appended. -/
theorem add_memory_empty_eval (zc : String → List Nat)
    (uid c md mid gid : String) (now : Nat) (rand : List ℚ)
    (hc : isBlank c = false) (hu : isBlank uid = false) :
    add_memory zc empty_store uid c md (some mid) gid now rand =
      ({ users := [uid], memories := [added_row zc mid uid c md now],
         embeddings := [⟨mid, uid, rand, now⟩],
         audit_log := [⟨uid, "CREATE", some mid, now,
           "Created memory version 1"⟩] }, true) := by
  unfold add_memory
  rw [hc, hu]
  simp [ensure_user_exists, empty_store, memKeyTaken, embKeyTaken,
    audit_insert, added_row]

theorem hexEncodeBytes_length (l : List Nat) :
    (hexEncodeBytes l).length = 2 * l.length := by
  induction l with
  | nil => rfl
  | cons b t ih =>
      simp only [hexEncodeBytes, List.map_cons, List.flatten_cons,
        List.length_append, List.length_cons, List.length_nil] at ih ⊢
      omega

theorem c7_payload_ne_content :
    hexEncode (c4_zcomp c7_content) ≠ c7_content := by
  intro h
  have hlen := congrArg String.length h
  have h1 : (hexEncode (c4_zcomp c7_content)).length
      = 2 * (c4_zcomp c7_content).length := hexEncodeBytes_length _
  have h2 : (c4_zcomp c7_content).length = 2000 := by
    show (List.map Char.toNat (List.replicate 2000 'A')).length = 2000
    rw [List.length_map, List.length_replicate]
  have h3 : c7_content.length = 2000 := by
    show (List.replicate 2000 'A').length = 2000
    rw [List.length_replicate]
  rw [h1, h2, h3] at hlen
  omega

/-- C7 (code_bug): after adding the spec's 2000-character content (which
is stored compressed), `get_memory` returns the zlib+hex payload, not the
original string — `MemoryStoreFixed` defines `_decompress_content` but
never calls it on any read path.  The concrete run below shows the add
succeeding and `get_memory` answering with the hex payload, which differs
from the original content. -/
theorem get_memory_returns_compressed_payload :
    (add_memory c4_zcomp empty_store "u1" c7_content "" (some "m1") "g" 0
        []).2 = true ∧
    ((get_memory (add_memory c4_zcomp empty_store "u1" c7_content ""
        (some "m1") "g" 0 []).1 "u1" "m1").map MemoryDict.content
      = some (hexEncode (c4_zcomp c7_content))) ∧
    hexEncode (c4_zcomp c7_content) ≠ c7_content := by
  have hblank : isBlank c7_content = false := by decide
  have hu : isBlank "u1" = false := by decide
  have heval := add_memory_empty_eval c4_zcomp "u1" c7_content "" "m1" "g"
    0 [] hblank hu
  have hrow : added_row c4_zcomp "m1" "u1" c7_content "" 0
      = ({ id := "m1", uid := "u1",
           content := hexEncode (c4_zcomp c7_content), metadata := "",
           created_at := 0, updated_at := 0, deleted_at := none,
           compressed := true, version := 1 } : MemRow) := by
    unfold added_row
    rw [c7_compress]
  refine ⟨by rw [heval], ?_, c7_payload_ne_content⟩
  rw [heval]
  unfold get_memory
  dsimp only
  rw [hrow]
  rw [List.find?_cons_of_pos _ rfl]
  rfl

theorem memKeyTaken_ensure (st : FixedStore) (uid2 mid uid : String) :
    memKeyTaken (ensure_user_exists st uid2) mid uid
      = memKeyTaken st mid uid := by
  unfold memKeyTaken
  rw [ensure_user_memories]

theorem embKeyTaken_ensure (st : FixedStore) (uid2 mid uid : String) :
    embKeyTaken (ensure_user_exists st uid2) mid uid
      = embKeyTaken st mid uid := by
  unfold embKeyTaken
  rw [ensure_user_embeddings]

theorem add_memory_blank_content (zc : String → List Nat)
    (st : FixedStore) (uid c md : String) (memory_id : Option String)
    (gid : String) (now : Nat) (rand : List ℚ) (hc : isBlank c = true) :
    add_memory zc st uid c md memory_id gid now rand = (st, false) := by
  unfold add_memory
  rw [hc]
  rfl

theorem add_memory_blank_uid (zc : String → List Nat)
    (st : FixedStore) (uid c md : String) (memory_id : Option String)
    (gid : String) (now : Nat) (rand : List ℚ)
    (hc : isBlank c = false) (hu : isBlank uid = true) :
    add_memory zc st uid c md memory_id gid now rand = (st, false) := by
  unfold add_memory
  rw [hc, hu]
  rfl

theorem add_memory_key_taken (zc : String → List Nat)
    (st : FixedStore) (uid c md mid gid : String) (now : Nat)
    (rand : List ℚ) (hc : isBlank c = false) (hu : isBlank uid = false)
    (hk : (memKeyTaken st mid uid || embKeyTaken st mid uid) = true) :
    add_memory zc st uid c md (some mid) gid now rand
      = (ensure_user_exists st uid, false) := by
  unfold add_memory
  rw [hc, hu]
  have e : (memKeyTaken (ensure_user_exists st uid) ((some mid).getD gid) uid
      || embKeyTaken (ensure_user_exists st uid) ((some mid).getD gid) uid)
      = true := by
    rw [Option.getD_some, memKeyTaken_ensure, embKeyTaken_ensure]
    exact hk
  simp only [Bool.false_eq_true, if_false, e, if_true]

theorem add_memory_success_eval (zc : String → List Nat)
    (st : FixedStore) (uid c md mid gid : String) (now : Nat)
    (rand : List ℚ) (hc : isBlank c = false) (hu : isBlank uid = false)
    (hk1 : memKeyTaken st mid uid = false)
    (hk2 : embKeyTaken st mid uid = false) :
    add_memory zc st uid c md (some mid) gid now rand
      = (audit_insert
          (inserted zc (ensure_user_exists st uid) mid uid c md now rand)
          uid "CREATE" (some mid) "Created memory version 1" now, true) := by
  unfold add_memory
  rw [hc, hu]
  have e1 : memKeyTaken (ensure_user_exists st uid) ((some mid).getD gid) uid
      = false := by
    rw [Option.getD_some, memKeyTaken_ensure]
    exact hk1
  have e2 : embKeyTaken (ensure_user_exists st uid) ((some mid).getD gid) uid
      = false := by
    rw [Option.getD_some, embKeyTaken_ensure]
    exact hk2
  simp only [Bool.false_eq_true, if_false, e1, e2, Bool.or_self]
  rfl

/-- A successful `add_memory` with an explicit id implies nonblank inputs
and a free key, and the resulting tables are the old ones with the new
row and embedding appended. -/
theorem add_memory_success_char (zc : String → List Nat)
    (st : FixedStore) (uid c md mid gid : String) (now : Nat)
    (rand : List ℚ)
    (h : (add_memory zc st uid c md (some mid) gid now rand).2 = true) :
    isBlank c = false ∧ isBlank uid = false ∧
    memKeyTaken st mid uid = false ∧ embKeyTaken st mid uid = false ∧
    (add_memory zc st uid c md (some mid) gid now rand).1.memories
      = st.memories ++ [added_row zc mid uid c md now] := by
  cases hbc : isBlank c with
  | true =>
      rw [add_memory_blank_content zc st uid c md (some mid) gid now rand
        hbc] at h
      exact absurd h (by simp)
  | false =>
  cases hbu : isBlank uid with
  | true =>
      rw [add_memory_blank_uid zc st uid c md (some mid) gid now rand hbc
        hbu] at h
      exact absurd h (by simp)
  | false =>
  cases hk : (memKeyTaken st mid uid || embKeyTaken st mid uid) with
  | true =>
      rw [add_memory_key_taken zc st uid c md mid gid now rand hbc hbu
        hk] at h
      exact absurd h (by simp)
  | false =>
      rw [Bool.or_eq_false_iff] at hk
      refine ⟨rfl, rfl, hk.1, hk.2, ?_⟩
      rw [add_memory_success_eval zc st uid c md mid gid now rand hbc hbu
        hk.1 hk.2]
      unfold audit_insert inserted
      dsimp only
      rw [ensure_user_memories]

theorem find?_active_none_of_not_taken {st : FixedStore} {mid uid : String}
    (h : memKeyTaken st mid uid = false) :
    st.memories.find? (activeKey mid uid) = none := by
  rw [List.find?_eq_none]
  intro r hr
  have hno := not_key_of_memKeyTaken_false h r hr
  unfold activeKey
  intro hact
  rw [Bool.and_eq_true, Bool.and_eq_true, beq_iff_eq, beq_iff_eq] at hact
  exact hno ⟨hact.1.1, hact.1.2⟩

/-- `find?` over a map that rewrites exactly the rows satisfying the
predicate, by a rewrite that keeps the predicate true. -/
theorem find?_map_of_pred {α : Type} (p : α → Bool) (g : α → α)
    (hpos : ∀ r, p r = true → p (g r) = true)
    (hneg : ∀ r, p r = false → g r = r) (l : List α) :
    (l.map g).find? p = (l.find? p).map g := by
  induction l with
  | nil => rfl
  | cons a t ih =>
      cases ha : p a with
      | true =>
          rw [List.map_cons, List.find?_cons_of_pos _ (hpos a ha),
            List.find?_cons_of_pos _ ha, Option.map_some']
      | false =>
          rw [List.map_cons, hneg a ha, List.find?_cons_of_neg _
            (by simp [ha]), List.find?_cons_of_neg _ (by simp [ha]), ih]

/-- Evaluation of a successful `update_memory`: when the active owned row
exists and the content is nonblank, the call reports true and rewrites
exactly the matching rows to version `r.version + 1`. -/
theorem update_memory_success_eval (zc : String → List Nat)
    (st : FixedStore) (uid mid c md : String) (now : Nat) (rand : List ℚ)
    (r : MemRow) (hc : isBlank c = false)
    (hfind : st.memories.find? (activeKey mid uid) = some r) :
    (update_memory zc st uid mid c md now rand).2 = true ∧
    (update_memory zc st uid mid c md now rand).1.memories
      = st.memories.map (fun x =>
          if activeKey mid uid x then
            updatedRow zc c md now (r.version + 1) x
          else x) := by
  unfold update_memory
  rw [hc]
  simp only [Bool.false_eq_true, if_false, ensure_user_memories, hfind]
  constructor
  · trivial
  · unfold audit_insert updatedRow
    dsimp only

/-- Successful updates bump `versionOf` by exactly one. -/
theorem update_memory_version_succ (zc : String → List Nat)
    (st : FixedStore) (uid mid c md : String) (now : Nat) (rand : List ℚ)
    (v : Nat) (hc : isBlank c = false)
    (hv : versionOf st mid uid = some v) :
    (update_memory zc st uid mid c md now rand).2 = true ∧
    versionOf (update_memory zc st uid mid c md now rand).1 mid uid
      = some (v + 1) := by
  unfold versionOf at hv
  rw [Option.map_eq_some'] at hv
  obtain ⟨r, hr, hrv⟩ := hv
  obtain ⟨h2, hmem⟩ := update_memory_success_eval zc st uid mid c md now
    rand r hc hr
  refine ⟨h2, ?_⟩
  unfold versionOf
  rw [hmem, find?_map_of_pred (activeKey mid uid)
    (fun x => if activeKey mid uid x then
      updatedRow zc c md now (r.version + 1) x else x)
    (fun x hx => by simp only [hx, if_true]; exact hx)
    (fun x hx => by simp only [hx, Bool.false_eq_true, if_false]),
    hr, Option.map_some']
  have hpr : activeKey mid uid r = true := List.find?_some hr
  simp only [hpr, if_true]
  simp [updatedRow, hrv]

/-- Iterating nonblank updates adds the number of updates to the
version. -/
theorem apply_updates_version (zc : String → List Nat)
    (uid mid : String) (us : List (String × String × Nat × List ℚ)) :
    ∀ (st : FixedStore) (v : Nat), versionOf st mid uid = some v →
      (∀ u ∈ us, isBlank u.1 = false) →
      versionOf (apply_updates zc uid mid st us) mid uid
        = some (v + us.length) := by
  induction us with
  | nil => intro st v hv _; simpa using hv
  | cons u rest ih =>
      intro st v hv hbl
      have h1 := update_memory_version_succ zc st uid mid u.1 u.2.1
        u.2.2.1 u.2.2.2 v (hbl u (List.mem_cons_self u rest)) hv
      have h2 := ih (update_memory zc st uid mid u.1 u.2.1 u.2.2.1
        u.2.2.2).1 (v + 1) h1.2
        (fun x hx => hbl x (List.mem_cons_of_mem u hx))
      unfold apply_updates
      rw [h2]
      congr 1
      simp only [List.length_cons]
      omega

/-- Two rows of a `PKUnique` store that agree on `(id, uid)` are the same
row. -/
theorem PKUnique.same_key_eq {st : FixedStore} (hpk : PKUnique st)
    {a b : MemRow} (ha : a ∈ st.memories) (hb : b ∈ st.memories)
    (h1 : a.id = b.id) (h2 : a.uid = b.uid) : a = b := by
  by_contra hne
  exact (List.Pairwise.forall
    (fun x y h => fun hk => h ⟨hk.1.symm, hk.2.symm⟩) hpk ha hb hne)
    ⟨h1, h2⟩

theorem update_memory_blank (zc : String → List Nat) (st : FixedStore)
    (uid mid c md : String) (now : Nat) (rand : List ℚ)
    (hc : isBlank c = true) :
    update_memory zc st uid mid c md now rand = (st, false) := by
  unfold update_memory
  rw [hc]
  rfl

theorem update_memory_not_found (zc : String → List Nat) (st : FixedStore)
    (uid mid c md : String) (now : Nat) (rand : List ℚ)
    (hc : isBlank c = false)
    (hfind : st.memories.find? (activeKey mid uid) = none) :
    update_memory zc st uid mid c md now rand
      = (ensure_user_exists st uid, false) := by
  unfold update_memory
  rw [hc]
  simp only [Bool.false_eq_true, if_false, ensure_user_memories, hfind]

theorem add_memory_failure_memories (zc : String → List Nat)
    (st : FixedStore) (uid c md mid gid : String) (now : Nat)
    (rand : List ℚ)
    (h : (add_memory zc st uid c md (some mid) gid now rand).2 = false) :
    (add_memory zc st uid c md (some mid) gid now rand).1.memories
      = st.memories := by
  cases hbc : isBlank c with
  | true => rw [add_memory_blank_content zc st uid c md (some mid) gid now
      rand hbc]
  | false =>
  cases hbu : isBlank uid with
  | true => rw [add_memory_blank_uid zc st uid c md (some mid) gid now
      rand hbc hbu]
  | false =>
  cases hk : (memKeyTaken st mid uid || embKeyTaken st mid uid) with
  | true =>
      rw [add_memory_key_taken zc st uid c md mid gid now rand hbc hbu hk]
      exact ensure_user_memories st uid
  | false =>
      rw [Bool.or_eq_false_iff] at hk
      rw [add_memory_success_eval zc st uid c md mid gid now rand hbc hbu
        hk.1 hk.2] at h
      exact absurd h (by simp)

theorem soft_delete_eval_pos (st : FixedStore) (uid mid : String)
    (now : Nat)
    (hany : st.memories.any (fun r => r.id == mid && r.uid == uid) = true) :
    soft_delete_memory st uid mid now
      = (audit_insert (stampDeleted st uid mid now) uid "DELETE"
          (some mid) "Soft deleted" now, true) := by
  unfold soft_delete_memory stampDeleted
  rw [if_pos hany]

theorem soft_delete_eval_neg (st : FixedStore) (uid mid : String)
    (now : Nat)
    (hany : st.memories.any (fun r => r.id == mid && r.uid == uid)
      = false) :
    soft_delete_memory st uid mid now = (st, false) := by
  unfold soft_delete_memory
  rw [if_neg]
  rw [hany]
  exact Bool.false_ne_true

theorem soft_delete_memories_shape (st : FixedStore) (uid mid : String)
    (now : Nat) :
    (soft_delete_memory st uid mid now).1.memories = st.memories ∨
    (soft_delete_memory st uid mid now).1.memories
      = (stampDeleted st uid mid now).memories := by
  cases hany : st.memories.any (fun r => r.id == mid && r.uid == uid) with
  | true =>
      right
      rw [soft_delete_eval_pos st uid mid now hany]
      rfl
  | false =>
      left
      rw [soft_delete_eval_neg st uid mid now hany]

/-- C3: version tracking of `MemoryStoreFixed`.  A successful `add`
stores version 1; a successful `update` of an active row at version `v`
stores exactly `v + 1`; after an `add` followed by `N` successful
updates the version is `1 + N`; `soft_delete_memory` changes no row's
version; and no operation (add, update, soft delete, purge) ever
decreases the version of a row that survives it, in a store whose
`(id, uid)` keys are unique. -/
theorem version_monotonicity (zc : String → List Nat) (st : FixedStore)
    (uid c md mid gid : String) (now : Nat) (rand : List ℚ)
    (c2 md2 : String) (now2 : Nat) (rand2 : List ℚ) (v : Nat)
    (us : List (String × String × Nat × List ℚ)) :
    ((add_memory zc st uid c md (some mid) gid now rand).2 = true →
      versionOf (add_memory zc st uid c md (some mid) gid now rand).1 mid
        uid = some 1) ∧
    (versionOf st mid uid = some v → isBlank c2 = false →
      (update_memory zc st uid mid c2 md2 now2 rand2).2 = true ∧
      versionOf (update_memory zc st uid mid c2 md2 now2 rand2).1 mid uid
        = some (v + 1)) ∧
    ((add_memory zc st uid c md (some mid) gid now rand).2 = true →
      (∀ u ∈ us, isBlank u.1 = false) →
      versionOf (apply_updates zc uid mid
          (add_memory zc st uid c md (some mid) gid now rand).1 us) mid uid
        = some (1 + us.length)) ∧
    ((soft_delete_memory st uid mid now).1.memories.map MemRow.version
      = st.memories.map MemRow.version) ∧
    (PKUnique st → ∀ a ∈ st.memories,
      (∀ b ∈ (add_memory zc st uid c md (some mid) gid now
          rand).1.memories, a.id = b.id → a.uid = b.uid →
          a.version ≤ b.version) ∧
      (∀ b ∈ (update_memory zc st uid mid c2 md2 now2 rand2).1.memories,
          a.id = b.id → a.uid = b.uid → a.version ≤ b.version) ∧
      (∀ b ∈ (soft_delete_memory st uid mid now).1.memories,
          a.id = b.id → a.uid = b.uid → a.version ≤ b.version) ∧
      (∀ b ∈ (purge_deleted st uid 30 now).1.memories,
          a.id = b.id → a.uid = b.uid → a.version ≤ b.version)) := by
  have parta : (add_memory zc st uid c md (some mid) gid now rand).2
      = true →
      versionOf (add_memory zc st uid c md (some mid) gid now rand).1 mid
        uid = some 1 := by
    intro h
    obtain ⟨hbc, hbu, hk1, hk2, hmem⟩ := add_memory_success_char zc st uid
      c md mid gid now rand h
    unfold versionOf
    rw [hmem, List.find?_append, find?_active_none_of_not_taken hk1]
    rw [List.find?_cons_of_pos _ (by simp [activeKey, added_row])]
    rfl
  refine ⟨parta, ?_, ?_, ?_, ?_⟩
  · intro hv hc2
    exact update_memory_version_succ zc st uid mid c2 md2 now2 rand2 v hc2
      hv
  · intro h hbl
    have h1 := parta h
    have h2 := apply_updates_version zc uid mid us
      (add_memory zc st uid c md (some mid) gid now rand).1 1 h1 hbl
    rw [h2, Nat.add_comm]
  · cases hany : st.memories.any (fun r => r.id == mid && r.uid == uid)
        with
    | true =>
        rw [soft_delete_eval_pos st uid mid now hany]
        show (stampDeleted st uid mid now).memories.map MemRow.version = _
        unfold stampDeleted
        dsimp only
        rw [List.map_map]
        apply List.map_congr_left
        intro x hx
        by_cases h : (x.id == mid && x.uid == uid) = true
        · simp [Function.comp, h]
        · rw [Bool.not_eq_true] at h
          simp [Function.comp, h]
    | false => rw [soft_delete_eval_neg st uid mid now hany]
  · intro hpk a ha
    refine ⟨?_, ?_, ?_, fun b hb h1 h2 =>
      le_of_eq (congrArg MemRow.version
        (hpk.same_key_eq ha hb h1 h2))⟩
    · intro b hb h1 h2
      cases hsucc : (add_memory zc st uid c md (some mid) gid now rand).2
          with
      | false =>
          rw [add_memory_failure_memories zc st uid c md mid gid now rand
            hsucc] at hb
          exact le_of_eq (congrArg MemRow.version
            (hpk.same_key_eq ha hb h1 h2))
      | true =>
          obtain ⟨hbc, hbu, hk1, hk2, hmem⟩ := add_memory_success_char zc
            st uid c md mid gid now rand hsucc
          rw [hmem, List.mem_append] at hb
          cases hb with
          | inl hb => exact le_of_eq (congrArg MemRow.version
              (hpk.same_key_eq ha hb h1 h2))
          | inr hb =>
              rw [List.mem_singleton] at hb
              subst hb
              exact absurd ⟨h1, h2⟩
                (not_key_of_memKeyTaken_false hk1 a ha)
    · intro b hb h1 h2
      cases hbc : isBlank c2 with
      | true =>
          rw [update_memory_blank zc st uid mid c2 md2 now2 rand2 hbc]
            at hb
          exact le_of_eq (congrArg MemRow.version
            (hpk.same_key_eq ha hb h1 h2))
      | false =>
      cases hfind : st.memories.find? (activeKey mid uid) with
      | none =>
          rw [update_memory_not_found zc st uid mid c2 md2 now2 rand2 hbc
            hfind, ensure_user_memories] at hb
          exact le_of_eq (congrArg MemRow.version
            (hpk.same_key_eq ha hb h1 h2))
      | some r =>
          obtain ⟨hflag, hmem⟩ := update_memory_success_eval zc st uid mid
            c2 md2 now2 rand2 r hbc hfind
          rw [hmem, List.mem_map] at hb
          obtain ⟨x, hx, hgx⟩ := hb
          have hkeep : x.id = b.id ∧ x.uid = b.uid := by
            by_cases hax : activeKey mid uid x = true
            · rw [← hgx]
              simp [hax, updatedRow]
            · rw [Bool.not_eq_true] at hax
              rw [← hgx]
              simp [hax]
          have hxa : x = a := hpk.same_key_eq hx ha
            (hkeep.1.trans h1.symm) (hkeep.2.trans h2.symm)
          subst hxa
          by_cases hax : activeKey mid uid x = true
          · have hr := List.find?_some hfind
            unfold activeKey at hax hr
            rw [Bool.and_eq_true, Bool.and_eq_true, beq_iff_eq,
              beq_iff_eq] at hax hr
            have hxr : x = r := hpk.same_key_eq hx
              (List.mem_of_find?_eq_some hfind)
              (hax.1.1.trans hr.1.1.symm) (hax.1.2.trans hr.1.2.symm)
            have : b = updatedRow zc c2 md2 now2 (r.version + 1) x := by
              rw [← hgx]
              simp only [activeKey, hax.1.1, hax.1.2, hax.2]
              simp [activeKey]
            rw [this]
            unfold updatedRow
            dsimp only
            rw [← hxr]
            omega
          · rw [Bool.not_eq_true] at hax
            rw [← hgx]
            simp [hax]
    · intro b hb h1 h2
      rcases soft_delete_memories_shape st uid mid now with hs | hs
      · rw [hs] at hb
        exact le_of_eq (congrArg MemRow.version
          (hpk.same_key_eq ha hb h1 h2))
      · rw [hs] at hb
        unfold stampDeleted at hb
        dsimp only at hb
        rw [List.mem_map] at hb
        obtain ⟨x, hx, hgx⟩ := hb
        have hkeep : x.id = b.id ∧ x.uid = b.uid ∧ x.version = b.version
            := by
          by_cases hxk : (x.id == mid && x.uid == uid) = true
          · rw [← hgx]
            simp [hxk]
          · rw [Bool.not_eq_true] at hxk
            rw [← hgx]
            simp [hxk]
        have hxa : x = a := hpk.same_key_eq hx ha
          (hkeep.1.trans h1.symm) (hkeep.2.1.trans h2.symm)
        rw [← hxa, hkeep.2.2]

/-- Witness for C3: on the empty store, adding m1 for u1 succeeds, both
update payloads are nonblank, and after the two successful updates the
stored version is 3 = 1 + 2. -/
theorem version_monotonicity_witness :
    (add_memory (fun _ => []) empty_store "u1" "hi" "" (some "m1") "g" 0
        []).2 = true ∧
    (∀ u ∈ w3_updates, isBlank u.1 = false) ∧
    versionOf (apply_updates (fun _ => []) "u1" "m1"
        (add_memory (fun _ => []) empty_store "u1" "hi" "" (some "m1") "g"
          0 []).1 w3_updates) "m1" "u1" = some 3 := by
  refine ⟨by decide, by decide, ?_⟩
  exact (version_monotonicity (fun _ => []) empty_store "u1" "hi" "" "m1"
    "g" 0 [] "x" "" 0 [] 0 w3_updates).2.2.1 (by decide) (by decide)

end FixedStore

namespace SingleStore

/-- The single-user `add_memory` does satisfy the Embedder contract that
C1 states: a null embedding fails with the store untouched, and a
successful add persists exactly the embedder's vector. -/
theorem single_add_memory_embedder (zcomp : String → List Nat)
    (st : SingleStore) (content metadata : String)
    (memory_id : Option String) (gen_id : String) (now : Nat) :
    add_memory zcomp st content metadata none memory_id gen_id now
      = (st, false) ∧
    (∀ emb : List ℚ,
      (add_memory zcomp st content metadata (some emb) memory_id gen_id
        now).2 = true →
      (add_memory zcomp st content metadata (some emb) memory_id gen_id
        now).1.embeddings
        = st.embeddings ++ [SEmb.mk (memory_id.getD gen_id) emb]) := by
  constructor
  · unfold add_memory
    split
    · rfl
    · rfl
  · intro emb h
    unfold add_memory at h ⊢
    dsimp only at h ⊢
    cases hbc : isBlank content with
    | true =>
        simp only [hbc] at h
        simp at h
    | false =>
        simp only [hbc, Bool.false_eq_true, if_false] at h ⊢
        cases hk : (st.memories.any (fun r => r.id == memory_id.getD gen_id)
            || st.embeddings.any
              (fun e => e.memory_id == memory_id.getD gen_id)) with
        | true =>
            simp only [hk] at h
            simp at h
        | false =>
            simp only [hk, Bool.false_eq_true, if_false] at h ⊢

end SingleStore

namespace MemoryEmbedder

theorem insertDescBySim_perm (x : Nat × ℝ) :
    ∀ l : List (Nat × ℝ), (insertDescBySim x l).Perm (x :: l) := by
  intro l
  induction l with
  | nil => exact List.Perm.refl _
  | cons y ys ih =>
      unfold insertDescBySim
      split
      · exact List.Perm.refl _
      · exact (ih.cons y).trans (List.Perm.swap x y ys)

theorem sortDescBySim_perm : ∀ l, (sortDescBySim l).Perm l := by
  intro l
  induction l with
  | nil => exact List.Perm.refl _
  | cons y ys ih =>
      show (insertDescBySim y (sortDescBySim ys)).Perm (y :: ys)
      exact (insertDescBySim_perm y _).trans (ih.cons y)

theorem insertDescBySim_sorted (x : Nat × ℝ) :
    ∀ l : List (Nat × ℝ), l.Pairwise (fun a b => b.2 ≤ a.2) →
      (insertDescBySim x l).Pairwise (fun a b => b.2 ≤ a.2) := by
  intro l
  induction l with
  | nil => intro _; exact List.pairwise_singleton _ _
  | cons y ys ih =>
      intro h
      rw [List.pairwise_cons] at h
      obtain ⟨hy, hys⟩ := h
      unfold insertDescBySim
      split
      next hle =>
        rw [List.pairwise_cons]
        refine ⟨?_, ?_⟩
        · intro z hz
          rcases List.mem_cons.mp hz with rfl | hz2
          · exact hle
          · exact le_trans (hy z hz2) hle
        · rw [List.pairwise_cons]
          exact ⟨hy, hys⟩
      next hlt =>
        rw [List.pairwise_cons]
        refine ⟨?_, ih hys⟩
        intro z hz
        have hz2 := (insertDescBySim_perm x ys).mem_iff.mp hz
        rcases List.mem_cons.mp hz2 with rfl | hz3
        · exact le_of_not_le hlt
        · exact hy z hz3

theorem sortDescBySim_sorted :
    ∀ l, (sortDescBySim l).Pairwise (fun a b => b.2 ≤ a.2) := by
  intro l
  induction l with
  | nil => exact List.Pairwise.nil
  | cons y ys ih => exact insertDescBySim_sorted y _ ih

theorem mem_enumFrom_getD {α : Type} (d : α) :
    ∀ (l : List α) (n : Nat) (p : Nat × α), p ∈ l.enumFrom n →
      ∃ i, i < l.length ∧ p = (n + i, l.getD i d) := by
  intro l
  induction l with
  | nil => intro n p hp; exact absurd hp (List.not_mem_nil p)
  | cons a t ih =>
      intro n p hp
      rcases List.mem_cons.mp hp with rfl | hp2
      · exact ⟨0, Nat.succ_pos _, by simp⟩
      · obtain ⟨i, hi, rfl⟩ := ih (n + 1) p hp2
        refine ⟨i + 1, Nat.succ_lt_succ hi, ?_⟩
        simp only [List.getD_cons_succ]
        congr 1
        omega

theorem mem_enum_map_scored (q : List ℚ) (embs : List (List ℚ))
    (p : Nat × ℝ)
    (hp : p ∈ embs.enum.map (fun x => (x.1, cosine_similarity q x.2))) :
    ∃ i, i < embs.length ∧ p = (i, cosine_similarity q (embs.getD i [])) := by
  rw [List.mem_map] at hp
  obtain ⟨x, hx, rfl⟩ := hp
  obtain ⟨i, hi, rfl⟩ := mem_enumFrom_getD [] embs 0 x hx
  exact ⟨i, hi, by simp⟩

end MemoryEmbedder

namespace SingleStore

theorem search_eval (mems : List SMem) (embs : List (List ℚ))
    (q : List ℚ) (top_k : Nat) (min_sim : ℝ)
    (hne : mems.isEmpty = false) :
    search mems embs (some q) top_k min_sim
      = ((MemoryEmbedder.find_similar q embs top_k).filter
          (fun p => min_sim ≤ p.2)).map
          (fun p => SearchResult.mk (mems.getD p.1 defaultSMem) p.2) := by
  unfold search
  rw [hne]
  simp only [Bool.false_eq_true, if_false]

/-- C8: postcondition of `search`.  The result is sorted descending by
similarity score, holds at most `topK` entries, every surviving entry's
score is at least `minSimilarity` (the below-threshold entries were
dropped after the sort and the truncation to `topK`), every entry is a
stored memory paired with exactly the cosine similarity of its stored
embedding to the query vector, and the cosine similarity is 0 whenever
either vector has zero norm. -/
theorem search_spec (mems : List SMem) (embs : List (List ℚ))
    (q : List ℚ) (top_k : Nat) (min_sim : ℝ)
    (hlen : embs.length = mems.length) (hne : mems.isEmpty = false) :
    ((search mems embs (some q) top_k min_sim).Pairwise
      (fun a b => b.similarity_score ≤ a.similarity_score)) ∧
    (search mems embs (some q) top_k min_sim).length ≤ top_k ∧
    (∀ r ∈ search mems embs (some q) top_k min_sim,
      min_sim ≤ r.similarity_score) ∧
    (∀ r ∈ search mems embs (some q) top_k min_sim,
      ∃ i, i < mems.length ∧ r.memory = mems.getD i defaultSMem ∧
        r.similarity_score
          = MemoryEmbedder.cosine_similarity q (embs.getD i [])) ∧
    (∀ a b : List ℚ,
      MemoryEmbedder.norm a = 0 ∨ MemoryEmbedder.norm b = 0 →
        MemoryEmbedder.cosine_similarity a b = 0) := by
  rw [search_eval mems embs q top_k min_sim hne]
  unfold MemoryEmbedder.find_similar
  refine ⟨?_, ?_, ?_, ?_, ?_⟩
  · rw [List.pairwise_map]
    have h1 := MemoryEmbedder.sortDescBySim_sorted
      (embs.enum.map (fun p => (p.1, MemoryEmbedder.cosine_similarity q p.2)))
    have h2 := List.Pairwise.sublist (List.take_sublist top_k _) h1
    exact List.Pairwise.sublist (List.filter_sublist _) h2
  · rw [List.length_map]
    exact le_trans (List.length_filter_le _ _) (List.length_take_le _ _)
  · intro r hr
    rw [List.mem_map] at hr
    obtain ⟨p, hp, rfl⟩ := hr
    have hd := List.of_mem_filter hp
    exact of_decide_eq_true hd
  · intro r hr
    rw [List.mem_map] at hr
    obtain ⟨p, hp, rfl⟩ := hr
    have hp2 := List.mem_of_mem_filter hp
    have hp3 := List.mem_of_mem_take hp2
    have hp4 := (MemoryEmbedder.sortDescBySim_perm _).mem_iff.mp hp3
    obtain ⟨i, hi, rfl⟩ := MemoryEmbedder.mem_enum_map_scored q embs p hp4
    exact ⟨i, hlen ▸ hi, rfl, rfl⟩
  · intro a b h
    unfold MemoryEmbedder.cosine_similarity
    rw [if_pos h]

/-- Witness for C8 at a concrete store: one memory whose stored embedding
is (1,1,1,1), query vector (1,0,0,0) — cosine similarity 1/2 — `topK` 5
and `minSimilarity` 9/10, as in the spec's scenario 6. -/
theorem search_spec_witness :
    ((search [w8_mem] [[1, 1, 1, 1]] (some [1, 0, 0, 0]) 5
        ((9 : ℝ) / 10)).Pairwise
      (fun a b => b.similarity_score ≤ a.similarity_score)) ∧
    (search [w8_mem] [[1, 1, 1, 1]] (some [1, 0, 0, 0]) 5
      ((9 : ℝ) / 10)).length ≤ 5 ∧
    (∀ r ∈ search [w8_mem] [[1, 1, 1, 1]] (some [1, 0, 0, 0]) 5
        ((9 : ℝ) / 10), (9 : ℝ) / 10 ≤ r.similarity_score) ∧
    (∀ r ∈ search [w8_mem] [[1, 1, 1, 1]] (some [1, 0, 0, 0]) 5
        ((9 : ℝ) / 10),
      ∃ i, i < [w8_mem].length ∧ r.memory = [w8_mem].getD i defaultSMem ∧
        r.similarity_score = MemoryEmbedder.cosine_similarity [1, 0, 0, 0]
          ([[1, 1, 1, 1]].getD i [])) ∧
    (∀ a b : List ℚ,
      MemoryEmbedder.norm a = 0 ∨ MemoryEmbedder.norm b = 0 →
        MemoryEmbedder.cosine_similarity a b = 0) :=
  search_spec [w8_mem] [[1, 1, 1, 1]] [1, 0, 0, 0] 5 ((9 : ℝ) / 10) rfl rfl

/-- C10 counterexample: with two memories sharing `created_at = 5`, the
memories query may return (m1, m2) while the embeddings query — an
independent `ORDER BY` over a tie — may return (m2, m1); both outputs
satisfy their query's ordering, yet index 0 of the memory list (m1) does
not own row 0 of the embedding matrix (m2), falsifying the claimed
alignment for every database state. -/
theorem cache_alignment_counterexample :
    memories_query_consistent c10_db [c10_m1, c10_m2] ∧
    embeddings_query_consistent c10_db [SEmb.mk "m2" [], SEmb.mk "m1" []] ∧
    [c10_m1, c10_m2].map SMem.id
      ≠ [SEmb.mk "m2" [], SEmb.mk "m1" []].map SEmb.memory_id := by
  refine ⟨⟨?_, ?_⟩, ⟨?_, ?_⟩, ?_⟩ <;> decide

theorem find?_by_id_of_nodup :
    ∀ (l : List SMem), (l.map SMem.id).Nodup →
      ∀ (i : String) (m : SMem), m ∈ l → m.id = i →
        l.find? (fun x => x.id == i) = some m := by
  intro l
  induction l with
  | nil => intro _ i m hm _; exact absurd hm (List.not_mem_nil m)
  | cons a t ih =>
      intro hnd i m hm hid
      rw [List.map_cons, List.nodup_cons] at hnd
      cases hpa : (a.id == i) with
      | true =>
          have hfc : List.find? (fun x => x.id == i) (a :: t) = some a :=
            List.find?_cons_of_pos _ hpa
          rw [hfc]
          rw [beq_iff_eq] at hpa
          rcases List.mem_cons.mp hm with rfl | hmt
          · rfl
          · exfalso
            apply hnd.1
            rw [hpa, ← hid]
            exact List.mem_map_of_mem SMem.id hmt
      | false =>
          have hfc : List.find? (fun x => x.id == i) (a :: t)
              = List.find? (fun x => x.id == i) t :=
            List.find?_cons_of_neg _ (by simp [hpa])
          rw [hfc]
          rcases List.mem_cons.mp hm with rfl | hmt
          · rw [beq_eq_false_iff_ne] at hpa
            exact absurd hid hpa
          · exact ih hnd.2 i m hmt hid

/-- For an embedding whose `memory_id` occurs among the (unique) memory
ids, the lookup resolves to its owning row and the query key is that
row's `created_at`. -/
theorem emb_resolves (db : SingleStore)
    (hids : (db.memories.map SMem.id).Nodup)
    (hbij : (db.embeddings.map SEmb.memory_id).Perm
      (db.memories.map SMem.id))
    (e : SEmb) (he : e ∈ db.embeddings) :
    memLookup db e.memory_id ∈ db.memories ∧
    (memLookup db e.memory_id).id = e.memory_id ∧
    embKey db e = (memLookup db e.memory_id).created_at := by
  have h1 : e.memory_id ∈ db.memories.map SMem.id :=
    hbij.mem_iff.mp (List.mem_map_of_mem SEmb.memory_id he)
  obtain ⟨m, hm, hmi⟩ := List.mem_map.mp h1
  have hf := find?_by_id_of_nodup db.memories hids e.memory_id m hm hmi
  unfold memLookup embKey
  rw [hf]
  exact ⟨hm, hmi, rfl⟩

/-- Weakly sorting a list whose keys are pairwise distinct has a unique
result: two sorted permutations of it coincide. -/
theorem sorted_perm_unique {α : Type} (key : α → Nat)
    {l o1 o2 : List α} (hp1 : o1.Perm l) (hp2 : o2.Perm l)
    (hs1 : o1.Pairwise (fun a b => key b ≤ key a))
    (hs2 : o2.Pairwise (fun a b => key b ≤ key a))
    (hnd : (l.map key).Nodup) : o1 = o2 := by
  haveI : IsAntisymm α (fun a b => key b < key a) :=
    ⟨fun a b h1 h2 => absurd h2 (Nat.lt_asymm h1)⟩
  have strict : ∀ {o : List α}, o.Perm l →
      o.Pairwise (fun a b => key b ≤ key a) →
      o.Pairwise (fun a b => key b < key a) := by
    intro o hp hs
    have hnd2 : (o.map key).Nodup := ((hp.map key).nodup_iff).mpr hnd
    have hne : o.Pairwise (fun a b => key a ≠ key b) :=
      List.pairwise_map.mp hnd2
    exact (hs.and hne).imp (fun h => lt_of_le_of_ne h.1 (Ne.symm h.2))
  exact List.eq_of_perm_of_sorted (hp1.trans hp2.symm) (strict hp1 hs1)
    (strict hp2 hs2)

/-- C10 amended: the cached Memory list and embedding matrix are aligned
(index `i` of the one owns row `i` of the other) for every pair of
query results consistent with the two `ORDER BY` clauses, provided the
memory ids are unique (the table's primary key), every memory has
exactly one embedding, and — the correction — the `created_at` values
are pairwise distinct.  With a tie in `created_at` the two independent
sorts need not agree (see the counterexample), so the claim's "for every
database state, including states where several memories share the same
created_at timestamp" does not hold. -/
theorem cache_alignment_of_distinct_created_at (db : SingleStore)
    (o1 : List SMem) (o2 : List SEmb)
    (hids : (db.memories.map SMem.id).Nodup)
    (hts : (db.memories.map SMem.created_at).Nodup)
    (hbij : (db.embeddings.map SEmb.memory_id).Perm
      (db.memories.map SMem.id))
    (h1 : memories_query_consistent db o1)
    (h2 : embeddings_query_consistent db o2) :
    o1.map SMem.id = o2.map SEmb.memory_id := by
  obtain ⟨hp1, hs1⟩ := h1
  obtain ⟨hp2, hs2⟩ := h2
  have hres : ∀ e ∈ o2, memLookup db e.memory_id ∈ db.memories ∧
      (memLookup db e.memory_id).id = e.memory_id ∧
      embKey db e = (memLookup db e.memory_id).created_at :=
    fun e he => emb_resolves db hids hbij e (hp2.subset he)
  have hxp : (o2.map (fun e => memLookup db e.memory_id)).Perm
      db.memories := by
    have s1 : (o2.map (fun e => memLookup db e.memory_id)).Perm
        (db.embeddings.map (fun e => memLookup db e.memory_id)) :=
      hp2.map _
    have s3 : (db.embeddings.map (fun e => memLookup db e.memory_id)).Perm
        (db.memories.map (fun m => memLookup db m.id)) := by
      have h := hbij.map (memLookup db)
      rw [List.map_map, List.map_map] at h
      exact h
    have s4 : db.memories.map (fun m => memLookup db m.id)
        = db.memories := by
      have hcong : ∀ m ∈ db.memories, memLookup db m.id = m := by
        intro m hm
        unfold memLookup
        rw [find?_by_id_of_nodup db.memories hids m.id m hm rfl]
        rfl
      rw [List.map_congr_left hcong, List.map_id']
    have s5 := s1.trans s3
    rw [s4] at s5
    exact s5
  have hxs : (o2.map (fun e => memLookup db e.memory_id)).Pairwise
      (fun a b => b.created_at ≤ a.created_at) := by
    rw [List.pairwise_map]
    refine List.Pairwise.imp_of_mem ?_ hs2
    intro a b ha hb hab
    rw [← (hres a ha).2.2, ← (hres b hb).2.2]
    exact hab
  have hkey := sorted_perm_unique SMem.created_at hp1 hxp hs1 hxs hts
  rw [hkey, List.map_map]
  apply List.map_congr_left
  intro e he
  exact (hres e he).2.1

/-- Witness for the amended C10 at a concrete database with distinct
`created_at` values: both consistent query results align. -/
theorem cache_alignment_witness :
    (w10_db.memories.map SMem.id).Nodup ∧
    (w10_db.memories.map SMem.created_at).Nodup ∧
    (w10_db.embeddings.map SEmb.memory_id).Perm
      (w10_db.memories.map SMem.id) ∧
    memories_query_consistent w10_db [w10_m1, w10_m2] ∧
    embeddings_query_consistent w10_db [SEmb.mk "m1" [], SEmb.mk "m2" []] ∧
    [w10_m1, w10_m2].map SMem.id
      = [SEmb.mk "m1" [], SEmb.mk "m2" []].map SEmb.memory_id := by
  refine ⟨by decide, by decide, by decide, ⟨by decide, by decide⟩,
    ⟨by decide, by decide⟩, ?_⟩
  exact cache_alignment_of_distinct_created_at w10_db [w10_m1, w10_m2]
    [SEmb.mk "m1" [], SEmb.mk "m2" []] (by decide) (by decide) (by decide)
    ⟨by decide, by decide⟩ ⟨by decide, by decide⟩

end SingleStore

namespace MemoryEmbedder

/-- The witness vectors of C8 have cosine similarity exactly 1/2:
dot = 1, norms 1 and 2. -/
theorem w8_cosine :
    cosine_similarity [1, 0, 0, 0] [1, 1, 1, 1] = 1 / 2 := by
  have hd1 : dotProduct [1, 0, 0, 0] [1, 0, 0, 0] = 1 := by
    norm_num [dotProduct, List.zipWith_cons_cons, List.zipWith_nil_left,
      List.sum_cons, List.sum_nil]
  have hd2 : dotProduct [1, 1, 1, 1] [1, 1, 1, 1] = 4 := by
    norm_num [dotProduct, List.zipWith_cons_cons, List.zipWith_nil_left,
      List.sum_cons, List.sum_nil]
  have hd3 : dotProduct [1, 0, 0, 0] [1, 1, 1, 1] = 1 := by
    norm_num [dotProduct, List.zipWith_cons_cons, List.zipWith_nil_left,
      List.sum_cons, List.sum_nil]
  have hn1 : norm [1, 0, 0, 0] = 1 := by
    rw [norm, hd1]
    norm_num
  have hn2 : norm [1, 1, 1, 1] = 2 := by
    rw [norm, hd2]
    rw [show ((4 : ℚ) : ℝ) = 2 ^ 2 by norm_num]
    exact Real.sqrt_sq (by norm_num)
  rw [cosine_similarity, hn1, hn2, hd3]
  rw [if_neg (by norm_num)]
  norm_num

end MemoryEmbedder

namespace SingleStore

/-- The spec's concrete scenario 6, as the claim C8 restates it: a store
whose only memory has similarity 0.5 to the query yields an empty result
for `minSimilarity` 0.9. -/
theorem search_scenario_empty :
    search [w8_mem] [[1, 1, 1, 1]] (some [1, 0, 0, 0]) 5 ((9 : ℝ) / 10)
      = [] := by
  rw [search_eval [w8_mem] [[1, 1, 1, 1]] [1, 0, 0, 0] 5 ((9 : ℝ) / 10)
    rfl]
  unfold MemoryEmbedder.find_similar
  have hsims : (([[1, 1, 1, 1]] : List (List ℚ)).enum.map
      (fun p => (p.1, MemoryEmbedder.cosine_similarity [1, 0, 0, 0] p.2)))
      = [(0, (1 : ℝ) / 2)] := by
    rw [show (([[1, 1, 1, 1]] : List (List ℚ)).enum)
        = [(0, ([1, 1, 1, 1] : List ℚ))] from rfl]
    rw [List.map_cons, List.map_nil, MemoryEmbedder.w8_cosine]
  rw [hsims]
  have hsort : MemoryEmbedder.sortDescBySim [(0, (1 : ℝ) / 2)]
      = [(0, (1 : ℝ) / 2)] := rfl
  rw [hsort]
  rw [show List.take 5 [(0, (1 : ℝ) / 2)] = [(0, (1 : ℝ) / 2)] from rfl]
  have hfilter : List.filter (fun p => decide ((9 : ℝ) / 10 ≤ p.2))
      [(0, (1 : ℝ) / 2)] = [] := by
    rw [List.filter_cons_of_neg]
    · rfl
    · simp only [decide_eq_true_eq]
      norm_num
  rw [hfilter]
  rfl

end SingleStore

end AngelMemory

